import Mathlib

/-!
Shallow embedding of `rplugin/python3/far/sources/shell.py` (far.vim shell
search source).  Text is modelled as `List Char`, Python `bytes` lengths via
UTF-8 sizes of chars, Python values that are compared against both ints and
strings (`ctx['case_sensitive']`, `ctx['regex']`) as a sum type `PyVal`.
Fallible Python operations (`int(...)`, `bytes.decode`) return `Option`; an
uncaught exception is the `raised` outcome.  Recursions that Python runs as
`while` loops are written with explicit fuel so that every definition is a
computable structural recursion.
-/

namespace FarShell

/-- A Python scalar that may be an int or a str.  `ctx` fields such as
`case_sensitive` are compared in the source both with `== 1` / `== 0`
(ints, lines 171/179) and with `== '0'` (string, lines 389/472), so the
model keeps the dynamic type. -/
inductive PyVal where
  | int (n : Int)
  | str (s : String)
deriving DecidableEq

/-- Python `==` on `PyVal`: ints compare to ints, strings to strings,
`0 == '0'` is `False`. -/
def pyEq : PyVal → PyVal → Bool
  | .int a, .int b => a == b
  | .str a, .str b => a == b
  | _, _ => false

/-- Characters stripped by Python `str.rstrip()` (ASCII whitespace). -/
def pyIsSpace (c : Char) : Bool :=
  c = ' ' ∨ c = '\t' ∨ c = '\n' ∨ c = '\r' ∨ c = '\x0b' ∨ c = '\x0c'

/-- Python `str.rstrip()`. -/
def rstrip (l : List Char) : List Char :=
  (l.reverse.dropWhile pyIsSpace).reverse

/-- Python `str.lstrip()` (used by `int(...)` which ignores surrounding
whitespace). -/
def lstrip (l : List Char) : List Char :=
  l.dropWhile pyIsSpace

/-- Digit-run validity for Python `int(...)`: nonempty, starts with a digit,
underscores only singly and between digits. -/
def digitsOk : List Char → Bool
  | [] => false
  | [c] => c.isDigit
  | c :: '_' :: rest2 => c.isDigit && digitsOk rest2
  | c :: d :: rest => c.isDigit && digitsOk (d :: rest)

/-- Numeric value of a digit run (underscores skipped). -/
def digitsVal (l : List Char) : Nat :=
  (l.filter (fun c => c ≠ '_')).foldl (fun a c => a * 10 + (c.toNat - 48)) 0

/-- Python `int(s)` on a decimal string: strips whitespace, optional sign,
digits (with underscore separators); `none` models the `ValueError`. -/
def pyInt (l : List Char) : Option Int :=
  match rstrip (lstrip l) with
  | '+' :: r => if digitsOk r then some (digitsVal r) else none
  | '-' :: r => if digitsOk r then some (-(digitsVal r : Int)) else none
  | r => if digitsOk r then some (digitsVal r) else none

/-- UTF-8 byte length of a char list, i.e. `len(text.encode('utf-8'))`. -/
def utf8Len (l : List Char) : Nat :=
  (l.map Char.utf8Size).sum

/-- Upper index of a Python slice `b[:j]` over a sequence of length `len`:
negative indices count from the end, everything is clamped into range. -/
def pySliceHi (len : Nat) (j : Int) : Nat :=
  if j < 0 then ((len : Int) + j).toNat else min j.toNat len

/-- Length in chars of `text.encode('utf-8')[:b].decode('utf-8')` for a
byte count `b` already clamped into range; `none` models the
`UnicodeDecodeError` raised when `b` cuts a multi-byte character. -/
def decodedPrefixLen : List Char → Nat → Option Nat
  | _, 0 => some 0
  | [], _ + 1 => none
  | c :: cs, b + 1 =>
    if c.utf8Size ≤ b + 1 then
      (decodedPrefixLen cs (b + 1 - c.utf8Size)).map (· + 1)
    else none

/-- `pat` is a leading segment of `l`. -/
def leadsWith : List Char → List Char → Bool
  | [], _ => true
  | _ :: _, [] => false
  | a :: as, b :: bs => a == b && leadsWith as bs

/-- Fuelled body of Python `text.find(pat, start)`. -/
def pyFindAux (text pat : List Char) : Nat → Nat → Option Nat
  | 0, _ => none
  | fuel + 1, start =>
    if text.length < start then none
    else if leadsWith pat (text.drop start) then some start
    else pyFindAux text pat fuel (start + 1)

/-- Python `text.find(pat, start)`: smallest occurrence index `≥ start`,
`none` for `-1`.  The fuel `text.length + 1 - start` covers every candidate
start position. -/
def pyFind (text pat : List Char) (start : Nat) : Option Nat :=
  pyFindAux text pat (text.length + 1 - start) start

/-- Split off the part of `l` before the first `sep`, together with the
rest after it. -/
def breakAt (sep : Char) : List Char → Option (List Char × List Char)
  | [] => none
  | c :: cs =>
    if c = sep then some ([], cs)
    else
      match breakAt sep cs with
      | none => none
      | some (pre, post) => some (c :: pre, post)

/-- Python `re.split(sep, l, n)`: split at most `n` times. -/
def splitLimit (sep : Char) : Nat → List Char → List (List Char)
  | 0, l => [l]
  | n + 1, l =>
    match breakAt sep l with
    | none => [l]
    | some (pre, post) => pre :: splitLimit sep n post

/-- `if flag not in cmdargs: cmdargs.append(flag)` (lines 144-148). -/
def addFlag (flags : List String) (f : String) : List String :=
  if f ∈ flags then flags else flags ++ [f]

/-- `if flag in cmdargs: cmdargs.remove(flag)` — Python `list.remove`
deletes the first occurrence (lines 175-186). -/
def removeIfIn (l : List String) (f : String) : List String :=
  if f ∈ l then l.erase f else l

/-! ### Pattern normalizer (lines 122-164)

The Python loop scans the pattern once, counting each run of backslashes
and checking whether the char after the run is `C` or `c`.  The scan below
carries the count of backslashes read but not yet emitted; a non-backslash
char flushes the pending run exactly as the source does: an odd run before
`C`/`c` emits one backslash fewer, adds the case flag (at most once) and
drops the letter; any other pending run is emitted verbatim before the
char itself. -/

def normScan : List Char → Nat → List String → List Char × List String
  | [], b, flags => (List.replicate b '\\', flags)
  | c :: cs, b, flags =>
    if c = '\\' then normScan cs (b + 1) flags
    else
      if (c = 'C' ∨ c = 'c') ∧ b % 2 = 1 then
        let flags2 := addFlag flags (if c = 'C' then "--case-sensitive" else "--ignore-case")
        let r := normScan cs 0 flags2
        (List.replicate (b - 1) '\\' ++ r.1, r.2)
      else
        let r := normScan cs 0 flags
        (List.replicate b '\\' ++ c :: r.1, r.2)

/-- The `\C` / `\c` normalizer applied to a pattern for the rg backends. -/
def normPat (l : List Char) (flags : List String) : List Char × List String :=
  normScan l 0 flags

/-- Case-sensitivity flag fixup for rg backends (lines 170-186). -/
def rgCaseFlags (cs : PyVal) (cmdargs : List String) : List String :=
  if pyEq cs (PyVal.int 1) then
    removeIfIn (removeIfIn (addFlag cmdargs "--case-sensitive") "--ignore-case") "--smart-case"
  else if pyEq cs (PyVal.int 0) then
    removeIfIn (removeIfIn (addFlag cmdargs "--ignore-case") "--case-sensitive") "--smart-case"
  else cmdargs

/-! ### Match records and file groups -/

/-- One entry of a file group's `items` list.  `mtch` models the optional
`'match'` dict key: structured-record mode stores it (line 379), the
colon-delimited mode never does (lines 454-458, 469-471, 487-489). -/
structure Item where
  lnum : Int
  cnum : Int
  text : List Char
  mtch : Option (List Char)
deriving DecidableEq

/-- One value of the Python `result` dict: `{'fname': ..., 'items': [...]}`. -/
structure FileGroup where
  fname : List Char
  items : List Item
deriving DecidableEq

/-- `result[file_name]['items'].append(item_ctx)`, creating the group on
first use: the `result` dict keyed by file name, insertion-ordered as a
Python dict (keys unique, so updating the first match is the dict
update). -/
def addItem : List FileGroup → List Char → Item → List FileGroup
  | [], fname, it => [⟨fname, [it]⟩]
  | g :: gs, fname, it =>
    if g.fname = fname then { g with items := g.items ++ [it] } :: gs
    else g :: addItem gs fname it

/-- Append several items to the same file group in order. -/
def addItems (gs : List FileGroup) (fname : List Char) (its : List Item) : List FileGroup :=
  its.foldl (fun acc it => addItem acc fname it) gs

/-- Total number of match records across all file groups. -/
def totalItems (gs : List FileGroup) : Nat :=
  (gs.map (fun g => g.items.length)).sum

/-- All `(file, line, column)` identity keys of the result set, in order. -/
def matchKeys (gs : List FileGroup) : List (List Char × Int × Int) :=
  gs.foldr (fun g acc => g.items.map (fun it => (g.fname, it.lnum, it.cnum)) ++ acc) []

/-- All items of the result set, in group order. -/
def itemsOf (gs : List FileGroup) : List Item :=
  gs.foldr (fun g acc => g.items ++ acc) []

/-! ### Chunked process runner `MultiProc` (lines 26-108) -/

/-- `arg_len = len(f) + 3` plus the accumulated command length of a chunk. -/
def chunkWeight (c : List (List Char)) : Nat :=
  (c.map (fun f => f.length + 3)).sum

/-- Greedy part of the chunking loop (lines 59-70) once the chunk is
already nonempty: stop before any file that would push past the budget. -/
def nextChunkGo (argMax : Nat) : Nat → List (List Char) → List (List Char) × List (List Char)
  | _, [] => ([], [])
  | cl, f :: rest =>
    if argMax < cl + (f.length + 3) then ([], f :: rest)
    else
      let r := nextChunkGo argMax (cl + (f.length + 3)) rest
      (f :: r.1, r.2)

/-- One chunk of the file list (lines 55-70): the first file is always
taken, even when it alone exceeds the budget (`if not chunk` branch). -/
def nextChunk (argMax cmdLen : Nat) : List (List Char) → List (List Char) × List (List Char)
  | [] => ([], [])
  | f :: rest =>
    if argMax < cmdLen + (f.length + 3) then ([f], rest)
    else
      let r := nextChunkGo argMax (cmdLen + (f.length + 3)) rest
      (f :: r.1, r.2)

/-- All successive chunks; the fuel `files.length` suffices because every
chunk consumes at least one file. -/
def allChunksAux (argMax cmdLen : Nat) : Nat → List (List Char) → List (List (List Char))
  | 0, _ => []
  | _, [] => []
  | fuel + 1, f :: rest =>
    let r := nextChunk argMax cmdLen (f :: rest)
    r.1 :: allChunksAux argMax cmdLen fuel r.2

def allChunks (argMax cmdLen : Nat) (files : List (List Char)) : List (List (List Char)) :=
  allChunksAux argMax cmdLen files.length files

def joinChunks (cs : List (List (List Char))) : List (List Char) :=
  cs.foldr (fun a b => a ++ b) []

/-- `cmd_len = sum(len(arg) + 1 for arg in current_cmd)` (line 56). -/
def cmdBaseLen (cmd : List (List Char)) : Nat :=
  (cmd.map (fun a => a.length + 1)).sum

/-- An abstract child process: its stdout lines, stderr bytes, whether it
is still running, and its exit code. -/
structure Child where
  outLines : List (List Char)
  errOut : List Char
  running : Bool
  code : Int
deriving DecidableEq

/-- The mutable state of a `MultiProc` object. -/
structure MPState where
  cmd : List (List Char)
  files : List (List Char)
  fileIdx : Nat
  proc : Option Child
  returncode : Option Int
  allStderr : List Char
deriving DecidableEq

/-- `_next_proc` (lines 39-76): drain the finished child's stderr, then
either mark exhaustion (`returncode = 0`, line 52 — unconditionally zero)
or spawn the next chunk.  `spawn` abstracts `subprocess.Popen`. -/
def nextProc (spawn : List (List Char) → Child) (s : MPState) : MPState :=
  let s1 :=
    match s.proc with
    | some p => { s with allStderr := s.allStderr ++ p.errOut }
    | none => s
  if s1.files.length ≤ s1.fileIdx then
    { s1 with proc := none, returncode := some 0 }
  else
    let r := nextChunk 30000 (cmdBaseLen s1.cmd) (s1.files.drop s1.fileIdx)
    { s1 with fileIdx := s1.fileIdx + r.1.length, proc := some (spawn (s1.cmd ++ r.1)) }

/-- Recursion measure for `readline`: remaining files plus one for an
active child; it strictly decreases across `nextProc`. -/
def mpMeasure (s : MPState) : Nat :=
  (s.files.length - s.fileIdx) + (match s.proc with | some _ => 1 | none => 0)

/-- Fuelled body of `MultiProc.readline` (lines 95-104): pop a line of the
active child, advancing to the next chunk when the child's output is
exhausted; `b''` once everything is consumed. -/
def readlineAux (spawn : List (List Char) → Child) : Nat → MPState → List Char × MPState
  | 0, s => ([], s)
  | fuel + 1, s =>
    match s.proc with
    | none => ([], s)
    | some p =>
      match p.outLines with
      | l :: ls => (l, { s with proc := some { p with outLines := ls } })
      | [] => readlineAux spawn fuel (nextProc spawn s)

def readline (spawn : List (List Char) → Child) (s : MPState) : List Char × MPState :=
  readlineAux spawn (mpMeasure s + 1) s

/-- `proc.poll()` of a child. -/
def childPoll (p : Child) : Option Int :=
  if p.running then none else some p.code

/-- `MultiProc.poll` (lines 78-85). -/
def poll (s : MPState) : Option Int :=
  match s.proc with
  | some p =>
    if childPoll p = none then none
    else if s.files.length ≤ s.fileIdx ∧ s.proc = none then s.returncode else none
  | none => if s.files.length ≤ s.fileIdx then s.returncode else none

/-- The `MultiProc` constructor state before the initial `_next_proc`. -/
def mpInit (cmd files : List (List Char)) : MPState :=
  ⟨cmd, files, 0, none, none, []⟩

/-- States a `MultiProc` object can actually be in: freshly constructed
(`__init__` ends in `_next_proc`) or after any number of `readline`s. -/
inductive MPReach (spawn : List (List Char) → Child) : MPState → Prop
  | init (cmd files : List (List Char)) : MPReach spawn (nextProc spawn (mpInit cmd files))
  | step {s : MPState} : MPReach spawn s → MPReach spawn (readline spawn s).2

/-- Invariant of `MultiProc` states: the active process is gone only
once the whole file list is consumed, and then the stored status is 0
(set unconditionally at line 52, whatever the children's exit codes). -/
def MPInv (s : MPState) : Prop :=
  s.proc = none → s.returncode = some 0 ∧ s.files.length ≤ s.fileIdx

/-! ### Search result loops (lines 292-495) -/

/-- A raw stdout line: either bytes that fail `decode('utf-8')` or the
decoded text. -/
inductive RawLine where
  | bad
  | ok (s : List Char)
deriving DecidableEq

/-- Outcome of a search loop: an error surfaced from the backend's stderr
(line 313/412), the `'invalid pattern'` error from submatch regex
compilation (line 394), an uncaught Python exception, or normal completion
with the grouped records and the remaining limit. -/
inductive Outcome where
  | stderrError (msg : List Char)
  | patternError
  | raised
  | finished (groups : List FileGroup) (limit : Int)
deriving DecidableEq

def finishedGroups : Outcome → List FileGroup
  | .finished gs _ => gs
  | _ => []

/-- Parameters of the colon-delimited loop taken from `ctx` and `args`. -/
structure ColonParams where
  pattern : List Char
  regex : PyVal
  caseSensitive : PyVal
  submatch : Option String
  maxColumns : Int
  range0 : Int
  range1 : Int
deriving DecidableEq

/-- Fuelled literal submatch expansion (lines 468-484): find the next
occurrence (case-folded when `case_sensitive == '0'`), record its 1-based
UTF-8 byte column, decrement the limit, stop after the append that brings
it to zero or when no occurrence remains.  Each loop step raises `move`,
so fuel `text.length + 2` is enough for any start. -/
def expandLitAux (cs : PyVal) (text pat : List Char) (lnum : Int) :
    Nat → Nat → Int → List Item × Int
  | 0, _, lim => ([], lim)
  | fuel + 1, move, lim =>
    let found :=
      if pyEq cs (PyVal.str "0") then
        pyFind (text.map Char.toLower) (pat.map Char.toLower) move
      else pyFind text pat move
    match found with
    | none => ([], lim)
    | some nc =>
      let it : Item := ⟨lnum, (utf8Len (text.take nc) : Int) + 1, text, none⟩
      let lim2 := lim - 1
      if lim2 ≤ 0 then ([it], lim2)
      else
        let r := expandLitAux cs text pat lnum fuel (nc + 1) lim2
        (it :: r.1, r.2)

/-- Spec-side variant of the literal expansion with case-insensitive
search: both text and pattern lowercased before the forward substring
search. -/
def expandLitCIAux (text pat : List Char) (lnum : Int) :
    Nat → Nat → Int → List Item × Int
  | 0, _, lim => ([], lim)
  | fuel + 1, move, lim =>
    match pyFind (text.map Char.toLower) (pat.map Char.toLower) move with
    | none => ([], lim)
    | some nc =>
      let it : Item := ⟨lnum, (utf8Len (text.take nc) : Int) + 1, text, none⟩
      let lim2 := lim - 1
      if lim2 ≤ 0 then ([it], lim2)
      else
        let r := expandLitCIAux text pat lnum fuel (nc + 1) lim2
        (it :: r.1, r.2)

/-- Spec-side variant of the literal expansion with case-sensitive
(plain) search. -/
def expandLitCSAux (text pat : List Char) (lnum : Int) :
    Nat → Nat → Int → List Item × Int
  | 0, _, lim => ([], lim)
  | fuel + 1, move, lim =>
    match pyFind text pat move with
    | none => ([], lim)
    | some nc =>
      let it : Item := ⟨lnum, (utf8Len (text.take nc) : Int) + 1, text, none⟩
      let lim2 := lim - 1
      if lim2 ≤ 0 then ([it], lim2)
      else
        let r := expandLitCSAux text pat lnum fuel (nc + 1) lim2
        (it :: r.1, r.2)

/-- Regex submatch expansion (lines 486-495) over the char start
positions the compiled pattern's `finditer` yields (the regex engine
itself is abstracted into that position list). -/
def expandRx (text : List Char) (lnum : Int) : List Nat → Int → List Item × Int
  | [], lim => ([], lim)
  | p :: ps, lim =>
    let it : Item := ⟨lnum, (utf8Len (text.take p) : Int) + 1, text, none⟩
    let lim2 := lim - 1
    if lim2 ≤ 0 then ([it], lim2)
    else
      let r := expandRx text lnum ps lim2
      (it :: r.1, r.2)

/-- Result of processing one nonempty colon-delimited line. -/
inductive LineStep where
  | skip
  | raisedStep
  | out (result : List FileGroup) (limit : Int)

/-- Processing of one nonempty decoded line in colon-delimited mode
(lines 419-495): split on the first three colons, parse line/column
numbers (`int(...)` may raise), apply the range and max-width filters,
append the primary record (the dedup guard at lines 440-444 is dead code:
`one_file_result` is never defined, so the `locals()`/`globals()` checks
are always false) and, for submatch strategy `'first'`, expand further
occurrences.  `rx` is the compiled-regex oracle (char positions of
`finditer` matches). -/
def colonLine (P : ColonParams) (rx : Option (List Char → Nat → List Nat))
    (line : List Char) (result : List FileGroup) (limit : Int) : LineStep :=
  match splitLimit ':' 3 line with
  | [f, lraw, craw, text] =>
    match pyInt lraw, pyInt craw with
    | some lnum, some cnum =>
      if (P.range0 ≠ -1 ∧ lnum < P.range0) ∨ (P.range1 ≠ -1 ∧ P.range1 < lnum) then .skip
      else if (text.length : Int) > P.maxColumns then .skip
      else
        let it : Item := ⟨lnum, cnum, text, none⟩
        let result1 := addItem result f it
        let limit1 := limit - 1
        if P.submatch = some "first" then
          match decodedPrefixLen text (pySliceHi (utf8Len text) (cnum - 1)) with
          | none => .raisedStep
          | some charNum =>
            let move := charNum + 1
            if pyEq P.regex (PyVal.str "0") then
              let r := expandLitAux P.caseSensitive text P.pattern lnum (text.length + 2) move limit1
              .out (addItems result1 f r.1) r.2
            else
              match rx with
              | some rxf => let r := expandRx text lnum (rxf text move) limit1
                            .out (addItems result1 f r.1) r.2
              | none => .raisedStep
        else .out result1 limit1
    | _, _ => .raisedStep
  | _ => .skip

/-- The colon-delimited read loop (lines 396-495).  `stderr` is the list
of lines `proc.stderr.readline()` will successively yield.  An empty
decoded line with an empty result reads one stderr line and surfaces it
when nonempty; end of stream behaves the same and then breaks (the
process has exited, so `poll()` is not `None`). -/
def colonLoop (P : ColonParams) (rx : Option (List Char → Nat → List Nat))
    (lines : List RawLine) (stderr : List (List Char)) (result : List FileGroup)
    (limit : Int) : Outcome :=
  if limit ≤ 0 then .finished result limit
  else
      match lines with
      | [] =>
        if result = [] then
          match stderr with
          | e :: _ => if e = [] then .finished result limit else .stderrError e
          | [] => .finished result limit
        else .finished result limit
      | .bad :: rest => colonLoop P rx rest stderr result limit
      | .ok s :: rest =>
        let line := rstrip s
        if line = [] then
          if result = [] then
            match stderr with
            | e :: es =>
              if e = [] then colonLoop P rx rest es result limit else .stderrError e
            | [] => colonLoop P rx rest [] result limit
          else colonLoop P rx rest stderr result limit
        else
          match colonLine P rx line result limit with
          | .skip => colonLoop P rx rest stderr result limit
          | .raisedStep => .raised
          | .out r2 l2 => colonLoop P rx rest stderr r2 l2

/-- Colon-delimited mode entry: compile the submatch pattern first when
the submatch strategy is `'first'` and regex mode is on (lines 386-394);
`rx = none` models a failed `re.compile`. -/
def colonSearch (P : ColonParams) (rx : Option (List Char → Nat → List Nat))
    (lines : List RawLine) (stderr : List (List Char)) (limit : Int) : Outcome :=
  if P.submatch = some "first" ∧ pyEq P.regex (PyVal.str "0") = false ∧ rx.isNone then
    .patternError
  else colonLoop P rx lines stderr [] limit

/-- One submatch of a structured (rg `--json`) match record. -/
structure SubM where
  mtext : List Char
  start : Nat
deriving DecidableEq

/-- One parsed stdout line of the structured-record loop.  The JSON layer
is abstracted into the shapes the source distinguishes: undecodable bytes
(line 302), a line that rstrips to empty (line 307), a JSON parse failure
(line 323), a decoded value that is not a dict with a `'type'` key
(line 327), a non-`'match'` record, and a `'match'` record with its path,
line number, text payload and submatches. -/
inductive RgEvent where
  | bad
  | blank
  | notJson
  | badShape
  | nonMatch
  | matchRec (path : List Char) (lnum : Int) (payload : List Char) (subs : List SubM)
deriving DecidableEq

/-- Number of submatches an event carries. -/
def subCount : RgEvent → Nat
  | .matchRec _ _ _ subs => subs.length
  | _ => 0

structure RgParams where
  maxColumns : Int
  range0 : Int
  range1 : Int
deriving DecidableEq

/-- The submatch loop of a structured match record (lines 353-383): one
record per submatch, `cnum = start + 1`, range-filtered, with NO limit
check inside the loop — the limit is only decremented.  The dedup guard
(lines 359-363) is dead code as in the colon loop. -/
def rgProcessSubs (P : RgParams) (fname : List Char) (lnum : Int) (text : List Char) :
    List SubM → List FileGroup → Int → List FileGroup × Int
  | [], result, limit => (result, limit)
  | sub :: rest, result, limit =>
    if (P.range0 ≠ -1 ∧ lnum < P.range0) ∨ (P.range1 ≠ -1 ∧ P.range1 < lnum) then
      rgProcessSubs P fname lnum text rest result limit
    else
      rgProcessSubs P fname lnum text rest
        (addItem result fname ⟨lnum, (sub.start : Int) + 1, text, some sub.mtext⟩)
        (limit - 1)

/-- The structured-record read loop (lines 297-383).  The max-width check
uses the raw payload; the stored text is the payload up to the first
newline, rstripped. -/
def rgLoop (P : RgParams) (events : List RgEvent) (stderr : List (List Char))
    (result : List FileGroup) (limit : Int) : Outcome :=
  if limit ≤ 0 then .finished result limit
  else
      match events with
      | [] =>
        if result = [] then
          match stderr with
          | e :: _ => if e = [] then .finished result limit else .stderrError e
          | [] => .finished result limit
        else .finished result limit
      | .bad :: rest => rgLoop P rest stderr result limit
      | .notJson :: rest => rgLoop P rest stderr result limit
      | .badShape :: rest => rgLoop P rest stderr result limit
      | .nonMatch :: rest => rgLoop P rest stderr result limit
      | .blank :: rest =>
        if result = [] then
          match stderr with
          | e :: es => if e = [] then rgLoop P rest es result limit else .stderrError e
          | [] => rgLoop P rest [] result limit
        else rgLoop P rest stderr result limit
      | .matchRec f lnum payload subs :: rest =>
        if (payload.length : Int) > P.maxColumns then rgLoop P rest stderr result limit
        else
          let text := rstrip (payload.takeWhile (fun c => c ≠ '\n'))
          let r := rgProcessSubs P f lnum text subs result limit
          rgLoop P rest stderr r.1 r.2

/-- First line of the backend's stderr stream is nonempty (what the
source's `if err:` test sees at end of stream). -/
def goodStderrFirst : List (List Char) → Prop
  | [] => False
  | e :: _ => e ≠ []

/-- `b` is a byte offset landing on a character boundary of `text`'s
UTF-8 encoding (and hence within it). -/
def isUtf8Boundary (text : List Char) (b : Int) : Prop :=
  ∃ k, k ≤ text.length ∧ b = (utf8Len (text.take k) : Int)

/-- Every item of every group satisfies `p`. -/
def AllItems (p : Item → Prop) (gs : List FileGroup) : Prop :=
  ∀ g ∈ gs, ∀ it ∈ g.items, p it

/-! ### Concrete inputs used by scenario theorems, counterexamples and
witnesses -/

/-- Colon-mode parameters: literal case-sensitive pattern `foo`, submatch
strategy `'first'`, `max_columns` 100, no range filter. -/
def pFirstLit : ColonParams :=
  ⟨"foo".toList, PyVal.str "0", PyVal.str "1", some "first", 100, -1, -1⟩

/-- Colon-mode parameters with no submatch expansion. -/
def pNoSub : ColonParams :=
  ⟨"x".toList, PyVal.str "0", PyVal.str "1", none, 100, -1, -1⟩

/-- Structured-record-mode parameters: `max_columns` 100, no range
filter. -/
def pRg : RgParams := ⟨100, -1, -1⟩

/-- A spawner whose children produce no output and exit 7 (exit codes
must not influence the exhausted `MultiProc` status). -/
def spawn0 : List (List Char) → Child := fun _ => ⟨[], [], false, 7⟩

/-- A freshly constructed `MultiProc` over an empty file list. -/
def mp0 : MPState := nextProc spawn0 (mpInit [['g']] [])

/-! ### Theorems -/

/-- Claim C1, counterexample: in colon-delimited mode with submatch
strategy `'first'` and limit 1, the line `a:1:1:foo foo` with pattern
`foo` appends TWO match records (the primary exhausts the limit and the
expansion appends once more before checking it), so the total exceeds the
limit taken from the context. -/
theorem c1_counterexample :
    ¬ ((totalItems (finishedGroups
        (colonSearch pFirstLit none [RawLine.ok "a:1:1:foo foo".toList] [] 1)) : Int) ≤ 1) := by
  decide

/-- Claim C2, demonstration of the code bug at the failing input: the
deduplication guard (lines 359-363 and 439-444) tests
`'one_file_result' in locals() or 'one_file_result' in globals()`, but
`one_file_result` is never assigned anywhere in the module, so the guard
is dead and the backend emitting the identical line `a.py:1:1:x` twice
yields two records with the same (file, line, column) identity key. -/
theorem c2_dedup_dead :
    colonSearch pNoSub none
        [RawLine.ok "a.py:1:1:x".toList, RawLine.ok "a.py:1:1:x".toList] [] 5
      = .finished [⟨"a.py".toList, [⟨1, 1, ['x'], none⟩, ⟨1, 1, ['x'], none⟩]⟩] 3
    ∧ ¬ (matchKeys (finishedGroups (colonSearch pNoSub none
        [RawLine.ok "a.py:1:1:x".toList, RawLine.ok "a.py:1:1:x".toList] [] 5))).Nodup := by
  exact ⟨by decide, by decide⟩

/-- Claim C3, counterexample: with budget 10 and base command length 2,
the file list `["aa", "abcdefgh"]` is chunked as `[["aa"], ["abcdefgh"]]`
and the SECOND chunk (a forced singleton) exceeds the budget, so "every
chunk except possibly the first stays within the budget" fails. -/
theorem c3_counterexample :
    allChunks 10 2 ["aa".toList, "abcdefgh".toList]
      = [["aa".toList], ["abcdefgh".toList]]
    ∧ ¬ (2 + chunkWeight ["abcdefgh".toList] ≤ 10) := by
  exact ⟨by decide, by decide⟩

theorem chunkWeight_nil : chunkWeight [] = 0 := rfl

theorem chunkWeight_cons (f : List Char) (c : List (List Char)) :
    chunkWeight (f :: c) = (f.length + 3) + chunkWeight c := by
  simp [chunkWeight]

theorem nextChunkGo_append (argMax : Nat) :
    ∀ (files : List (List Char)) (cl : Nat),
      (nextChunkGo argMax cl files).1 ++ (nextChunkGo argMax cl files).2 = files := by
  intro files
  induction files with
  | nil => intro cl; rfl
  | cons f rest ih =>
    intro cl
    by_cases h : argMax < cl + (f.length + 3)
    · simp [nextChunkGo, h]
    · simp [nextChunkGo, h, ih]

theorem nextChunkGo_cost (argMax : Nat) :
    ∀ (files : List (List Char)) (cl : Nat), cl ≤ argMax →
      cl + chunkWeight (nextChunkGo argMax cl files).1 ≤ argMax := by
  intro files
  induction files with
  | nil => intro cl h; simpa [nextChunkGo, chunkWeight] using h
  | cons f rest ih =>
    intro cl h
    by_cases hlt : argMax < cl + (f.length + 3)
    · simpa [nextChunkGo, hlt, chunkWeight] using h
    · have h2 := ih (cl + (f.length + 3)) (by omega)
      simp only [nextChunkGo, hlt, if_false, chunkWeight_cons]
      omega

theorem nextChunk_append (argMax cmdLen : Nat) (files : List (List Char)) :
    (nextChunk argMax cmdLen files).1 ++ (nextChunk argMax cmdLen files).2 = files := by
  cases files with
  | nil => rfl
  | cons f rest =>
    by_cases h : argMax < cmdLen + (f.length + 3)
    · simp [nextChunk, h]
    · simp [nextChunk, h, nextChunkGo_append]

theorem nextChunk_ne_nil (argMax cmdLen : Nat) (files : List (List Char))
    (h : files ≠ []) : (nextChunk argMax cmdLen files).1 ≠ [] := by
  cases files with
  | nil => exact absurd rfl h
  | cons f rest =>
    by_cases hlt : argMax < cmdLen + (f.length + 3) <;> simp [nextChunk, hlt]

theorem nextChunk_cost (argMax cmdLen : Nat) (files : List (List Char))
    (h2 : 2 ≤ (nextChunk argMax cmdLen files).1.length) :
    cmdLen + chunkWeight (nextChunk argMax cmdLen files).1 ≤ argMax := by
  cases files with
  | nil => simp [nextChunk] at h2
  | cons f rest =>
    by_cases hlt : argMax < cmdLen + (f.length + 3)
    · simp [nextChunk, hlt] at h2
    · have hc := nextChunkGo_cost argMax rest (cmdLen + (f.length + 3)) (by omega)
      simp only [nextChunk, hlt, if_false, chunkWeight_cons]
      omega

theorem nextChunk_snd_length (argMax cmdLen : Nat) (files : List (List Char))
    (h : files ≠ []) : (nextChunk argMax cmdLen files).2.length < files.length := by
  have happ := nextChunk_append argMax cmdLen files
  have hne := nextChunk_ne_nil argMax cmdLen files h
  have hlen : (nextChunk argMax cmdLen files).1.length
      + (nextChunk argMax cmdLen files).2.length = files.length := by
    rw [← List.length_append, happ]
  have hpos : 0 < (nextChunk argMax cmdLen files).1.length := List.length_pos.mpr hne
  omega

theorem joinChunks_nil : joinChunks [] = [] := rfl

theorem joinChunks_cons (a : List (List Char)) (l : List (List (List Char))) :
    joinChunks (a :: l) = a ++ joinChunks l := rfl

theorem allChunksAux_join (argMax cmdLen : Nat) :
    ∀ (fuel : Nat) (files : List (List Char)), files.length ≤ fuel →
      joinChunks (allChunksAux argMax cmdLen fuel files) = files := by
  intro fuel
  induction fuel with
  | zero =>
    intro files h
    have : files = [] := List.eq_nil_of_length_eq_zero (by omega)
    subst this; rfl
  | succ n ih =>
    intro files h
    cases files with
    | nil => rfl
    | cons f rest =>
      have hne : (f :: rest) ≠ ([] : List (List Char)) := by simp
      have hsnd := nextChunk_snd_length argMax cmdLen (f :: rest) hne
      have hih := ih (nextChunk argMax cmdLen (f :: rest)).2 (by
        simp only [List.length_cons] at hsnd h; omega)
      calc joinChunks (allChunksAux argMax cmdLen (n + 1) (f :: rest))
          = (nextChunk argMax cmdLen (f :: rest)).1
              ++ joinChunks (allChunksAux argMax cmdLen n (nextChunk argMax cmdLen (f :: rest)).2) := by
            simp [allChunksAux, joinChunks_cons]
        _ = (nextChunk argMax cmdLen (f :: rest)).1 ++ (nextChunk argMax cmdLen (f :: rest)).2 := by
            rw [hih]
        _ = f :: rest := nextChunk_append argMax cmdLen (f :: rest)

theorem allChunksAux_mem (argMax cmdLen : Nat) :
    ∀ (fuel : Nat) (files : List (List Char)), files.length ≤ fuel →
      ∀ ch ∈ allChunksAux argMax cmdLen fuel files,
        ch ≠ [] ∧ (2 ≤ ch.length → cmdLen + chunkWeight ch ≤ argMax) := by
  intro fuel
  induction fuel with
  | zero => intro files h ch hch; simp [allChunksAux] at hch
  | succ n ih =>
    intro files h ch hch
    cases files with
    | nil => simp [allChunksAux] at hch
    | cons f rest =>
      have hne : (f :: rest) ≠ ([] : List (List Char)) := by simp
      have hsnd := nextChunk_snd_length argMax cmdLen (f :: rest) hne
      simp only [allChunksAux, List.mem_cons] at hch
      rcases hch with hch | hch
      · subst hch
        exact ⟨nextChunk_ne_nil argMax cmdLen _ hne, nextChunk_cost argMax cmdLen _⟩
      · exact ih (nextChunk argMax cmdLen (f :: rest)).2
          (by simp only [List.length_cons] at hsnd h; omega) ch hch

/-- Claim C3, amended: concatenating the chunks in order reproduces the
file list, every chunk contains at least one file, and every chunk with
MORE THAN ONE file respects the budget (a chunk may exceed the budget
exactly when it is a forced singleton — at any position, not only the
first). -/
theorem c3_amended :
    ∀ (argMax cmdLen : Nat) (files : List (List Char)),
      joinChunks (allChunks argMax cmdLen files) = files
      ∧ ∀ ch ∈ allChunks argMax cmdLen files,
          ch ≠ [] ∧ (2 ≤ ch.length → cmdLen + chunkWeight ch ≤ argMax) := by
  intro argMax cmdLen files
  exact ⟨allChunksAux_join argMax cmdLen files.length files le_rfl,
         allChunksAux_mem argMax cmdLen files.length files le_rfl⟩

/-- Witness for `c3_amended` at a concrete budget, base length and file
list whose single chunk holds two files. -/
theorem c3_amended_witness :
    joinChunks (allChunks 10 2 [['a'], ['b']]) = [['a'], ['b']]
    ∧ 2 + chunkWeight [['a'], ['b']] ≤ 10 :=
  ⟨(c3_amended 10 2 [['a'], ['b']]).1,
   ((c3_amended 10 2 [['a'], ['b']]).2 [['a'], ['b']] (by decide)).2 (by decide)⟩

theorem normScan_replicate (rest : List Char) (flags : List String) :
    ∀ (b a : Nat),
      normScan (List.replicate b '\\' ++ rest) a flags = normScan rest (a + b) flags := by
  intro b
  induction b with
  | zero => intro a; simp
  | succ n ih =>
    intro a
    rw [List.replicate_succ, List.cons_append]
    show normScan ('\\' :: (List.replicate n '\\' ++ rest)) a flags = _
    rw [normScan]
    simp only [if_pos rfl, if_true]
    rw [ih (a + 1)]
    have harith : a + 1 + n = a + (n + 1) := by omega
    rw [harith]

theorem addFlag_count (flags : List String) (g f : String) (h : flags.count f ≤ 1) :
    (addFlag flags g).count f ≤ 1 := by
  unfold addFlag
  split
  · exact h
  · rename_i hg
    rw [List.count_append]
    by_cases hfg : f = g
    · subst hfg
      have h0 : flags.count f = 0 := by
        rw [List.count_eq_zero]; exact hg
      simp [h0]
    · have h1 : List.count f [g] = 0 := by
        simp [List.count_cons, hfg]
      omega

theorem normScan_count (f : String) :
    ∀ (l : List Char) (b : Nat) (flags : List String), flags.count f ≤ 1 →
      ((normScan l b flags).2).count f ≤ 1 := by
  intro l
  induction l with
  | nil => intro b flags h; simpa [normScan] using h
  | cons c cs ih =>
    intro b flags h
    by_cases h1 : c = '\\'
    · rw [normScan]; simp only [if_pos h1]
      exact ih (b + 1) flags h
    · by_cases h2 : (c = 'C' ∨ c = 'c') ∧ b % 2 = 1
      · rw [normScan]; simp only [if_neg h1, if_pos h2]
        exact ih 0 _ (addFlag_count flags _ f h)
      · rw [normScan]; simp only [if_neg h1, if_neg h2]
        exact ih 0 flags h

/-- Claim C5: for the rg backends' pattern normalizer, a `C`/`c` after
an odd backslash run is a directive — one backslash fewer is emitted, the
letter is dropped, and the matching case flag is appended (at most once:
a flag list holding the flag at most once keeps holding it at most once,
however many directives occur); after an even run (including none) the
letter and all its backslashes are kept verbatim. -/
theorem c5_normalizer :
    ∀ (d : Char) (f : String),
      (d = 'C' ∧ f = "--case-sensitive") ∨ (d = 'c' ∧ f = "--ignore-case") →
      (∀ (b : Nat) (s : List Char) (flags : List String), b % 2 = 1 →
        normPat (List.replicate b '\\' ++ d :: s) flags
          = (List.replicate (b - 1) '\\' ++ (normPat s (addFlag flags f)).1,
             (normPat s (addFlag flags f)).2))
      ∧ (∀ (b : Nat) (s : List Char) (flags : List String), b % 2 = 0 →
        normPat (List.replicate b '\\' ++ d :: s) flags
          = (List.replicate b '\\' ++ d :: (normPat s flags).1, (normPat s flags).2))
      ∧ (∀ (p : List Char) (flags : List String),
          flags.count f ≤ 1 → ((normPat p flags).2).count f ≤ 1) := by
  intro d f hdf
  refine ⟨?_, ?_, ?_⟩
  · intro b s flags hb
    unfold normPat
    rw [normScan_replicate, Nat.zero_add]
    rcases hdf with ⟨hd, hf⟩ | ⟨hd, hf⟩ <;> subst hd <;> subst hf <;>
      · rw [normScan]
        simp [hb]
  · intro b s flags hb
    unfold normPat
    rw [normScan_replicate, Nat.zero_add]
    rcases hdf with ⟨hd, hf⟩ | ⟨hd, hf⟩ <;> subst hd <;>
      · rw [normScan]
        simp [hb]
  · intro p flags h
    exact normScan_count f p 0 flags h

/-- Witness for `c5_normalizer`: one backslash before `C` consumes the
run, drops the `C`, and threads `--case-sensitive` through the rest;
repeated directives leave at most one copy of the flag. -/
theorem c5_normalizer_witness :
    normPat (List.replicate 1 '\\' ++ 'C' :: " foo".toList) []
      = (List.replicate 0 '\\' ++ (normPat " foo".toList (addFlag [] "--case-sensitive")).1,
         (normPat " foo".toList (addFlag [] "--case-sensitive")).2)
    ∧ ((normPat "\\C\\C".toList []).2).count "--case-sensitive" ≤ 1 :=
  ⟨(c5_normalizer 'C' "--case-sensitive" (Or.inl ⟨rfl, rfl⟩)).1 1 " foo".toList [] (by decide),
   (c5_normalizer 'C' "--case-sensitive" (Or.inl ⟨rfl, rfl⟩)).2.2 "\\C\\C".toList [] (by decide)⟩

theorem expandLit_ci_eq (cs : PyVal) (text pat : List Char) (lnum : Int)
    (hcs : pyEq cs (PyVal.str "0") = true) :
    ∀ (fuel move : Nat) (lim : Int),
      expandLitAux cs text pat lnum fuel move lim
        = expandLitCIAux text pat lnum fuel move lim := by
  intro fuel
  induction fuel with
  | zero => intro move lim; rfl
  | succ n ih =>
    intro move lim
    simp only [expandLitAux, expandLitCIAux, hcs, if_true]
    cases pyFind (text.map Char.toLower) (pat.map Char.toLower) move with
    | none => rfl
    | some nc =>
      by_cases hl : lim - 1 ≤ 0
      · simp [hl]
      · simp [hl, ih]

theorem expandLit_cs_eq (cs : PyVal) (text pat : List Char) (lnum : Int)
    (hcs : pyEq cs (PyVal.str "0") = false) :
    ∀ (fuel move : Nat) (lim : Int),
      expandLitAux cs text pat lnum fuel move lim
        = expandLitCSAux text pat lnum fuel move lim := by
  intro fuel
  induction fuel with
  | zero => intro move lim; rfl
  | succ n ih =>
    intro move lim
    simp only [expandLitAux, expandLitCSAux, hcs, if_false, Bool.false_eq_true]
    cases pyFind text pat move with
    | none => rfl
    | some nc =>
      by_cases hl : lim - 1 ≤ 0
      · simp [hl]
      · simp [hl, ih]

/-- Claim C10: case-insensitive submatch expansion is selected if and
only if `case_sensitive` is the STRING `'0'` (the source compares with
`== '0'` at lines 389/472); the integer 0 — which the rg flag fixup at
lines 179-186 treats as "add `--ignore-case`" — selects the plain
case-sensitive search, while the string `'0'` leaves the rg flags
untouched. -/
theorem c10_case_condition :
    (∀ (cs : PyVal) (text pat : List Char) (lnum : Int) (fuel move : Nat) (lim : Int),
      expandLitAux cs text pat lnum fuel move lim
        = if pyEq cs (PyVal.str "0") then expandLitCIAux text pat lnum fuel move lim
          else expandLitCSAux text pat lnum fuel move lim)
    ∧ pyEq (PyVal.int 0) (PyVal.str "0") = false
    ∧ rgCaseFlags (PyVal.int 0) ["--smart-case"] = ["--ignore-case"]
    ∧ rgCaseFlags (PyVal.str "0") ["--smart-case"] = ["--smart-case"] := by
  refine ⟨?_, by decide, by decide, by decide⟩
  intro cs text pat lnum fuel move lim
  by_cases hcs : pyEq cs (PyVal.str "0") = true
  · rw [if_pos hcs]
    exact expandLit_ci_eq cs text pat lnum hcs fuel move lim
  · rw [if_neg hcs]
    exact expandLit_cs_eq cs text pat lnum (by
      revert hcs; cases pyEq cs (PyVal.str "0") <;> simp) fuel move lim

theorem take_boundary (text : List Char) (n : Nat) :
    isUtf8Boundary text ((utf8Len (text.take n) : Int)) := by
  refine ⟨min n text.length, Nat.min_le_right _ _, ?_⟩
  norm_cast
  by_cases h : n ≤ text.length
  · rw [min_eq_left h]
  · have h2 : text.length ≤ n := le_of_not_le h
    rw [min_eq_right h2, List.take_of_length_le h2, List.take_length]

theorem expandLitAux_boundary (cs : PyVal) (text pat : List Char) (lnum : Int) :
    ∀ (fuel move : Nat) (lim : Int) (it : Item),
      it ∈ (expandLitAux cs text pat lnum fuel move lim).1 →
      isUtf8Boundary text (it.cnum - 1) := by
  intro fuel
  induction fuel with
  | zero => intro move lim it hit; simp [expandLitAux] at hit
  | succ n ih =>
    intro move lim it hit
    simp only [expandLitAux] at hit
    split at hit
    · simp at hit
    · rename_i nc heq
      split at hit
      · simp at hit
        subst hit
        simpa using take_boundary text nc
      · simp at hit
        rcases hit with hit | hit
        · subst hit
          simpa using take_boundary text nc
        · exact ih (nc + 1) (lim - 1) it hit

theorem expandRx_boundary (text : List Char) (lnum : Int) :
    ∀ (ps : List Nat) (lim : Int) (it : Item),
      it ∈ (expandRx text lnum ps lim).1 → isUtf8Boundary text (it.cnum - 1) := by
  intro ps
  induction ps with
  | nil => intro lim it hit; simp [expandRx] at hit
  | cons p rest ih =>
    intro lim it hit
    simp only [expandRx] at hit
    split at hit
    · simp at hit
      subst hit
      simpa using take_boundary text p
    · simp at hit
      rcases hit with hit | hit
      · subst hit
        simpa using take_boundary text p
      · exact ih (lim - 1) it hit

/-- Claim C7: every record the submatch expander produces (literal loop,
and regex loop for any sequence of match positions) carries a column
whose zero-based byte offset is the UTF-8 length of a character prefix
of the line text — it can never fall inside a multi-byte sequence. -/
theorem c7_utf8_boundary :
    (∀ (cs : PyVal) (text pat : List Char) (lnum : Int) (fuel move : Nat) (lim : Int),
      ∀ it ∈ (expandLitAux cs text pat lnum fuel move lim).1,
        isUtf8Boundary text (it.cnum - 1))
    ∧ (∀ (text : List Char) (lnum : Int) (ps : List Nat) (lim : Int),
      ∀ it ∈ (expandRx text lnum ps lim).1, isUtf8Boundary text (it.cnum - 1)) :=
  ⟨fun cs text pat lnum fuel move lim it hit =>
      expandLitAux_boundary cs text pat lnum fuel move lim it hit,
   fun text lnum ps lim it hit => expandRx_boundary text lnum ps lim it hit⟩

/-- Witness for `c7_utf8_boundary`: on the line `é foo` (two-byte first
character) the expanded `foo` record has byte column 4, and offset 3 is
a character boundary. -/
theorem c7_utf8_boundary_witness :
    isUtf8Boundary "é foo".toList ((4 : Int) - 1) :=
  c7_utf8_boundary.1 (PyVal.str "1") "é foo".toList "foo".toList 1 10 0 5
    ⟨1, 4, "é foo".toList, none⟩ (by decide)

theorem totalItems_nil : totalItems [] = 0 := rfl

theorem totalItems_cons (g : FileGroup) (gs : List FileGroup) :
    totalItems (g :: gs) = g.items.length + totalItems gs := by
  simp [totalItems]

theorem addItem_ne_nil (gs : List FileGroup) (f : List Char) (it : Item) :
    addItem gs f it ≠ [] := by
  cases gs with
  | nil => simp [addItem]
  | cons g gs' => by_cases h : g.fname = f <;> simp [addItem, h]

theorem totalItems_addItem (gs : List FileGroup) (f : List Char) (it : Item) :
    totalItems (addItem gs f it) = totalItems gs + 1 := by
  induction gs with
  | nil => simp [addItem, totalItems]
  | cons g gs' ih =>
    by_cases h : g.fname = f
    · simp only [addItem, if_pos h, totalItems_cons, List.length_append, List.length_cons,
        List.length_nil]
      omega
    · simp only [addItem, if_neg h, totalItems_cons, ih]
      omega

theorem addItems_ne_nil :
    ∀ (its : List Item) (gs : List FileGroup) (f : List Char),
      gs ≠ [] → addItems gs f its ≠ [] := by
  intro its
  induction its with
  | nil => intro gs f h; simpa [addItems] using h
  | cons it rest ih =>
    intro gs f _
    show addItems (addItem gs f it) f rest ≠ []
    exact ih (addItem gs f it) f (addItem_ne_nil gs f it)

theorem totalItems_addItems :
    ∀ (its : List Item) (gs : List FileGroup) (f : List Char),
      totalItems (addItems gs f its) = totalItems gs + its.length := by
  intro its
  induction its with
  | nil => intro gs f; simp [addItems]
  | cons it rest ih =>
    intro gs f
    show totalItems (addItems (addItem gs f it) f rest) = _
    rw [ih, totalItems_addItem]
    simp only [List.length_cons]
    omega

theorem expandLitAux_spec (cs : PyVal) (text pat : List Char) (lnum : Int) :
    ∀ (fuel move : Nat) (lim : Int), 0 ≤ lim →
      ((expandLitAux cs text pat lnum fuel move lim).1.length : Int)
          = lim - (expandLitAux cs text pat lnum fuel move lim).2
      ∧ -1 ≤ (expandLitAux cs text pat lnum fuel move lim).2 := by
  intro fuel
  induction fuel with
  | zero => intro move lim h; simp [expandLitAux]; omega
  | succ n ih =>
    intro move lim h
    simp only [expandLitAux]
    split
    · simp; omega
    · rename_i nc heq
      split
      · rename_i hl; simp; omega
      · rename_i hl
        have hr := ih (nc + 1) (lim - 1) (by omega)
        simp only [List.length_cons]
        push_cast at hr ⊢
        omega

theorem expandRx_spec (text : List Char) (lnum : Int) :
    ∀ (ps : List Nat) (lim : Int), 0 ≤ lim →
      ((expandRx text lnum ps lim).1.length : Int) = lim - (expandRx text lnum ps lim).2
      ∧ -1 ≤ (expandRx text lnum ps lim).2 := by
  intro ps
  induction ps with
  | nil => intro lim h; simp [expandRx]; omega
  | cons p rest ih =>
    intro lim h
    simp only [expandRx]
    split
    · rename_i hl; simp; omega
    · rename_i hl
      have hr := ih (lim - 1) (by omega)
      simp only [List.length_cons]
      push_cast at hr ⊢
      omega

theorem colonLoop_stop (P : ColonParams) (rx : Option (List Char → Nat → List Nat))
    (lines : List RawLine) (stderr : List (List Char)) (result : List FileGroup)
    {limit : Int} (h : limit ≤ 0) :
    colonLoop P rx lines stderr result limit = .finished result limit := by
  rw [colonLoop.eq_def, if_pos h]

theorem colonLoop_nil (P : ColonParams) (rx : Option (List Char → Nat → List Nat))
    (stderr : List (List Char)) (result : List FileGroup) {limit : Int} (h : ¬ limit ≤ 0) :
    colonLoop P rx [] stderr result limit =
      (if result = [] then
        match stderr with
        | e :: _ => if e = [] then Outcome.finished result limit else Outcome.stderrError e
        | [] => Outcome.finished result limit
       else Outcome.finished result limit) := by
  rw [colonLoop.eq_def, if_neg h]

theorem colonLoop_bad (P : ColonParams) (rx : Option (List Char → Nat → List Nat))
    (rest : List RawLine) (stderr : List (List Char)) (result : List FileGroup)
    {limit : Int} (h : ¬ limit ≤ 0) :
    colonLoop P rx (.bad :: rest) stderr result limit
      = colonLoop P rx rest stderr result limit := by
  rw [colonLoop.eq_def, if_neg h]

theorem colonLoop_ok_blank (P : ColonParams) (rx : Option (List Char → Nat → List Nat))
    (s : List Char) (rest : List RawLine) (stderr : List (List Char))
    (result : List FileGroup) {limit : Int} (h : ¬ limit ≤ 0) (hline : rstrip s = []) :
    colonLoop P rx (.ok s :: rest) stderr result limit =
      (if result = [] then
        match stderr with
        | e :: es =>
          if e = [] then colonLoop P rx rest es result limit else Outcome.stderrError e
        | [] => colonLoop P rx rest [] result limit
       else colonLoop P rx rest stderr result limit) := by
  rw [colonLoop.eq_def, if_neg h]
  simp [hline]

theorem colonLoop_ok_line (P : ColonParams) (rx : Option (List Char → Nat → List Nat))
    (s : List Char) (rest : List RawLine) (stderr : List (List Char))
    (result : List FileGroup) {limit : Int} (h : ¬ limit ≤ 0) (hline : rstrip s ≠ []) :
    colonLoop P rx (.ok s :: rest) stderr result limit =
      (match colonLine P rx (rstrip s) result limit with
       | .skip => colonLoop P rx rest stderr result limit
       | .raisedStep => Outcome.raised
       | .out r2 l2 => colonLoop P rx rest stderr r2 l2) := by
  rw [colonLoop.eq_def, if_neg h]
  simp [hline]

theorem colonLine_out (P : ColonParams) (rx : Option (List Char → Nat → List Nat))
    (line : List Char) (result : List FileGroup) {limit : Int} {r2 : List FileGroup}
    {l2 : Int} (hl : 1 ≤ limit)
    (h : colonLine P rx line result limit = .out r2 l2) :
    (totalItems r2 : Int) = totalItems result + (limit - l2) ∧ -1 ≤ l2 ∧ r2 ≠ [] := by
  simp only [colonLine] at h
  split at h
  · rename_i f lraw craw text hsplit
    split at h
    · rename_i lnum cnum hln hcn
      split at h
      · exact absurd h (by simp)
      · split at h
        · exact absurd h (by simp)
        · split at h
          · -- submatch = 'first'
            split at h
            · exact absurd h (by simp)
            · rename_i charNum heq2
              split at h
              · -- literal expansion
                rename_i hre
                injection h with h1 h2
                subst h1; subst h2
                have hs := expandLitAux_spec P.caseSensitive text P.pattern lnum
                  (text.length + 2) (charNum + 1) (limit - 1) (by omega)
                rw [totalItems_addItems, totalItems_addItem]
                refine ⟨?_, hs.2, addItems_ne_nil _ _ _ (addItem_ne_nil _ _ _)⟩
                push_cast
                push_cast at hs
                omega
              · -- regex expansion
                cases rx with
                | none => simp at h
                | some rxf =>
                  injection h with h1 h2
                  subst h1; subst h2
                  have hs := expandRx_spec text lnum (rxf text (charNum + 1))
                    (limit - 1) (by omega)
                  rw [totalItems_addItems, totalItems_addItem]
                  refine ⟨?_, hs.2, addItems_ne_nil _ _ _ (addItem_ne_nil _ _ _)⟩
                  push_cast
                  push_cast at hs
                  omega
          · -- no submatch expansion
            injection h with h1 h2
            subst h1; subst h2
            rw [totalItems_addItem]
            refine ⟨?_, by omega, addItem_ne_nil _ _ _⟩
            push_cast
            omega
    · exact absurd h (by simp)
  · exact absurd h (by simp)

theorem colonLoop_spec (P : ColonParams) (rx : Option (List Char → Nat → List Nat)) :
    ∀ (lines : List RawLine) (stderr : List (List Char)) (result : List FileGroup)
      (limit : Int) (gs : List FileGroup) (lim2 : Int),
      -1 ≤ limit →
      colonLoop P rx lines stderr result limit = .finished gs lim2 →
      (totalItems gs : Int) = totalItems result + (limit - lim2) ∧ -1 ≤ lim2 := by
  intro lines
  induction lines with
  | nil =>
    intro stderr result limit gs lim2 hlim h
    by_cases h0 : limit ≤ 0
    · rw [colonLoop_stop P rx _ _ _ h0] at h
      injection h with h1 h2
      subst h1; subst h2
      exact ⟨by omega, hlim⟩
    · rw [colonLoop_nil P rx _ _ h0] at h
      split at h
      · split at h
        · split at h
          · injection h with h1 h2
            subst h1; subst h2
            exact ⟨by omega, by omega⟩
          · exact absurd h (by simp)
        · injection h with h1 h2
          subst h1; subst h2
          exact ⟨by omega, by omega⟩
      · injection h with h1 h2
        subst h1; subst h2
        exact ⟨by omega, by omega⟩
  | cons l rest ih =>
    intro stderr result limit gs lim2 hlim h
    by_cases h0 : limit ≤ 0
    · rw [colonLoop_stop P rx _ _ _ h0] at h
      injection h with h1 h2
      subst h1; subst h2
      exact ⟨by omega, hlim⟩
    · cases l with
      | bad =>
        rw [colonLoop_bad P rx _ _ _ h0] at h
        exact ih _ _ _ _ _ hlim h
      | ok s =>
        by_cases hb : rstrip s = []
        · rw [colonLoop_ok_blank P rx _ _ _ _ h0 hb] at h
          split at h
          · split at h
            · split at h
              · exact ih _ _ _ _ _ hlim h
              · exact absurd h (by simp)
            · exact ih _ _ _ _ _ hlim h
          · exact ih _ _ _ _ _ hlim h
        · rw [colonLoop_ok_line P rx _ _ _ _ h0 hb] at h
          split at h
          · exact ih _ _ _ _ _ hlim h
          · exact absurd h (by simp)
          · rename_i r2' l2' heq
            have hout := colonLine_out P rx (rstrip s) result (by omega) heq
            have hrec := ih _ _ _ _ _ (by omega : (-1 : Int) ≤ l2') h
            obtain ⟨he, hl2, _⟩ := hout
            obtain ⟨he2, hl3⟩ := hrec
            exact ⟨by omega, hl3⟩

theorem rgLoop_stop (P : RgParams) (events : List RgEvent) (stderr : List (List Char))
    (result : List FileGroup) {limit : Int} (h : limit ≤ 0) :
    rgLoop P events stderr result limit = .finished result limit := by
  rw [rgLoop.eq_def, if_pos h]

theorem rgLoop_nil (P : RgParams) (stderr : List (List Char)) (result : List FileGroup)
    {limit : Int} (h : ¬ limit ≤ 0) :
    rgLoop P [] stderr result limit =
      (if result = [] then
        match stderr with
        | e :: _ => if e = [] then Outcome.finished result limit else Outcome.stderrError e
        | [] => Outcome.finished result limit
       else Outcome.finished result limit) := by
  rw [rgLoop.eq_def, if_neg h]

theorem rgLoop_bad (P : RgParams) (rest : List RgEvent) (stderr : List (List Char))
    (result : List FileGroup) {limit : Int} (h : ¬ limit ≤ 0) :
    rgLoop P (.bad :: rest) stderr result limit = rgLoop P rest stderr result limit := by
  rw [rgLoop.eq_def, if_neg h]

theorem rgLoop_notJson (P : RgParams) (rest : List RgEvent) (stderr : List (List Char))
    (result : List FileGroup) {limit : Int} (h : ¬ limit ≤ 0) :
    rgLoop P (.notJson :: rest) stderr result limit = rgLoop P rest stderr result limit := by
  rw [rgLoop.eq_def, if_neg h]

theorem rgLoop_badShape (P : RgParams) (rest : List RgEvent) (stderr : List (List Char))
    (result : List FileGroup) {limit : Int} (h : ¬ limit ≤ 0) :
    rgLoop P (.badShape :: rest) stderr result limit = rgLoop P rest stderr result limit := by
  rw [rgLoop.eq_def, if_neg h]

theorem rgLoop_nonMatch (P : RgParams) (rest : List RgEvent) (stderr : List (List Char))
    (result : List FileGroup) {limit : Int} (h : ¬ limit ≤ 0) :
    rgLoop P (.nonMatch :: rest) stderr result limit = rgLoop P rest stderr result limit := by
  rw [rgLoop.eq_def, if_neg h]

theorem rgLoop_blank (P : RgParams) (rest : List RgEvent) (stderr : List (List Char))
    (result : List FileGroup) {limit : Int} (h : ¬ limit ≤ 0) :
    rgLoop P (.blank :: rest) stderr result limit =
      (if result = [] then
        match stderr with
        | e :: es => if e = [] then rgLoop P rest es result limit else Outcome.stderrError e
        | [] => rgLoop P rest [] result limit
       else rgLoop P rest stderr result limit) := by
  rw [rgLoop.eq_def, if_neg h]

theorem rgLoop_match (P : RgParams) (f : List Char) (lnum : Int) (payload : List Char)
    (subs : List SubM) (rest : List RgEvent) (stderr : List (List Char))
    (result : List FileGroup) {limit : Int} (h : ¬ limit ≤ 0) :
    rgLoop P (.matchRec f lnum payload subs :: rest) stderr result limit =
      (if (payload.length : Int) > P.maxColumns then rgLoop P rest stderr result limit
       else
        rgLoop P rest stderr
          (rgProcessSubs P f lnum (rstrip (payload.takeWhile (fun c => c ≠ '\n')))
            subs result limit).1
          (rgProcessSubs P f lnum (rstrip (payload.takeWhile (fun c => c ≠ '\n')))
            subs result limit).2) := by
  rw [rgLoop.eq_def, if_neg h]

theorem rgProcessSubs_spec (P : RgParams) (fname : List Char) (lnum : Int) (text : List Char) :
    ∀ (subs : List SubM) (result : List FileGroup) (limit : Int),
      ((totalItems (rgProcessSubs P fname lnum text subs result limit).1 : Int)
          = totalItems result + (limit - (rgProcessSubs P fname lnum text subs result limit).2))
      ∧ (limit - (rgProcessSubs P fname lnum text subs result limit).2) ≤ (subs.length : Int)
      ∧ 0 ≤ limit - (rgProcessSubs P fname lnum text subs result limit).2
      ∧ ((result ≠ [] ∨ (rgProcessSubs P fname lnum text subs result limit).2 ≠ limit) →
          (rgProcessSubs P fname lnum text subs result limit).1 ≠ []) := by
  intro subs
  induction subs with
  | nil =>
    intro result limit
    simp [rgProcessSubs]
  | cons sub rest ih =>
    intro result limit
    simp only [rgProcessSubs]
    split
    · have hr := ih result limit
      obtain ⟨e1, e2, e3, e4⟩ := hr
      refine ⟨e1, ?_, e3, e4⟩
      simp only [List.length_cons]
      push_cast
      omega
    · have hr := ih (addItem result fname ⟨lnum, (sub.start : Int) + 1, text, some sub.mtext⟩)
        (limit - 1)
      obtain ⟨e1, e2, e3, e4⟩ := hr
      rw [totalItems_addItem] at e1
      refine ⟨?_, ?_, ?_, ?_⟩
      · push_cast at e1 ⊢
        omega
      · simp only [List.length_cons]
        push_cast
        omega
      · omega
      · intro _
        exact e4 (Or.inl (addItem_ne_nil _ _ _))

theorem rgLoop_spec (P : RgParams) (S : Nat) :
    ∀ (events : List RgEvent) (stderr : List (List Char)) (result : List FileGroup)
      (limit : Int) (gs : List FileGroup) (lim2 : Int),
      (∀ e ∈ events, subCount e ≤ S) →
      rgLoop P events stderr result limit = .finished gs lim2 →
      (totalItems gs : Int) = totalItems result + (limit - lim2)
      ∧ (lim2 = limit ∨ 1 - (S : Int) ≤ lim2) := by
  intro events
  induction events with
  | nil =>
    intro stderr result limit gs lim2 _ h
    by_cases h0 : limit ≤ 0
    · rw [rgLoop_stop P _ _ _ h0] at h
      injection h with h1 h2; subst h1; subst h2
      exact ⟨by omega, Or.inl rfl⟩
    · rw [rgLoop_nil P _ _ h0] at h
      split at h
      · split at h
        · split at h
          · injection h with h1 h2; subst h1; subst h2
            exact ⟨by omega, Or.inl rfl⟩
          · exact absurd h (by simp)
        · injection h with h1 h2; subst h1; subst h2
          exact ⟨by omega, Or.inl rfl⟩
      · injection h with h1 h2; subst h1; subst h2
        exact ⟨by omega, Or.inl rfl⟩
  | cons e rest ih =>
    intro stderr result limit gs lim2 hS h
    have hSrest : ∀ x ∈ rest, subCount x ≤ S := fun x hx => hS x (List.mem_cons_of_mem _ hx)
    by_cases h0 : limit ≤ 0
    · rw [rgLoop_stop P _ _ _ h0] at h
      injection h with h1 h2; subst h1; subst h2
      exact ⟨by omega, Or.inl rfl⟩
    · cases e with
      | bad =>
        rw [rgLoop_bad P _ _ _ h0] at h
        exact ih _ _ _ _ _ hSrest h
      | notJson =>
        rw [rgLoop_notJson P _ _ _ h0] at h
        exact ih _ _ _ _ _ hSrest h
      | badShape =>
        rw [rgLoop_badShape P _ _ _ h0] at h
        exact ih _ _ _ _ _ hSrest h
      | nonMatch =>
        rw [rgLoop_nonMatch P _ _ _ h0] at h
        exact ih _ _ _ _ _ hSrest h
      | blank =>
        rw [rgLoop_blank P _ _ _ h0] at h
        split at h
        · split at h
          · split at h
            · exact ih _ _ _ _ _ hSrest h
            · exact absurd h (by simp)
          · exact ih _ _ _ _ _ hSrest h
        · exact ih _ _ _ _ _ hSrest h
      | matchRec f lnum payload subs =>
        rw [rgLoop_match P f lnum payload subs _ _ _ h0] at h
        split at h
        · exact ih _ _ _ _ _ hSrest h
        · have hsub := rgProcessSubs_spec P f lnum
            (rstrip (payload.takeWhile (fun c => c ≠ '\n'))) subs result limit
          obtain ⟨e1, e2, e3, _⟩ := hsub
          have hrec := ih _ _ _ _ _ hSrest h
          obtain ⟨f1, f2⟩ := hrec
          have hSe : (subs.length : Int) ≤ (S : Int) := by
            have hh := hS _ (List.mem_cons_self _ _)
            simp only [subCount] at hh
            exact_mod_cast hh
          refine ⟨by omega, ?_⟩
          rcases f2 with f2 | f2 <;> omega

/-- Claim C1, amended: in colon-delimited mode the total number of match
records never exceeds `limit + 1` (the one-record overshoot happens when
the primary record exhausts the limit and a submatch expansion appends
once more before checking it); in structured-record mode it never exceeds
`limit + S` where `S` bounds the number of submatches a single record
carries (the limit is only checked between lines, never inside the
submatch loop). -/
theorem c1_amended :
    (∀ (P : ColonParams) (rx : Option (List Char → Nat → List Nat)) (lines : List RawLine)
      (stderr : List (List Char)) (limit : Int) (gs : List FileGroup) (lim2 : Int),
      0 ≤ limit → colonSearch P rx lines stderr limit = .finished gs lim2 →
      (totalItems gs : Int) ≤ limit + 1)
    ∧ (∀ (P : RgParams) (events : List RgEvent) (stderr : List (List Char)) (limit : Int)
      (S : Nat) (gs : List FileGroup) (lim2 : Int),
      0 ≤ limit → (∀ e ∈ events, subCount e ≤ S) →
      rgLoop P events stderr [] limit = .finished gs lim2 →
      (totalItems gs : Int) ≤ limit + S) := by
  constructor
  · intro P rx lines stderr limit gs lim2 h0 h
    unfold colonSearch at h
    split at h
    · exact absurd h (by simp)
    · have hs := colonLoop_spec P rx lines stderr [] limit gs lim2 (by omega) h
      rw [totalItems_nil] at hs
      omega
  · intro P events stderr limit S gs lim2 h0 hS h
    have hs := rgLoop_spec P S events stderr [] limit gs lim2 hS h
    rw [totalItems_nil] at hs
    obtain ⟨e1, e2⟩ := hs
    rcases e2 with e2 | e2 <;> omega

/-- Witness for `c1_amended` on the C6 scenario run: two records, limit
5, bound `5 + 1` holds. -/
theorem c1_amended_witness :
    (totalItems [⟨"src/a.py".toList,
        [⟨10, 5, "foo bar foo".toList, none⟩, ⟨10, 9, "foo bar foo".toList, none⟩]⟩] : Int)
      ≤ 5 + 1 :=
  c1_amended.1 pFirstLit none [RawLine.ok "src/a.py:10:5:foo bar foo".toList] [] 5
    [⟨"src/a.py".toList,
      [⟨10, 5, "foo bar foo".toList, none⟩, ⟨10, 9, "foo bar foo".toList, none⟩]⟩] 3
    (by decide) (by decide)

theorem AllItems_nil (p : Item → Prop) : AllItems p [] := by
  intro g hg
  simp at hg

theorem AllItems_addItem (p : Item → Prop) (gs : List FileGroup) (f : List Char) (it : Item)
    (hp : p it) (h : AllItems p gs) : AllItems p (addItem gs f it) := by
  induction gs with
  | nil =>
    intro g hg it' hit'
    simp [addItem] at hg
    subst hg
    simp at hit'
    subst hit'
    exact hp
  | cons g0 gs' ih =>
    intro g hg it' hit'
    by_cases hf : g0.fname = f
    · simp only [addItem, if_pos hf] at hg
      rcases List.mem_cons.mp hg with hg | hg
      · subst hg
        rcases List.mem_append.mp hit' with h' | h'
        · exact h g0 (List.mem_cons_self _ _) it' h'
        · simp at h'
          subst h'
          exact hp
      · exact h g (List.mem_cons_of_mem _ hg) it' hit'
    · simp only [addItem, if_neg hf] at hg
      rcases List.mem_cons.mp hg with hg | hg
      · subst hg
        exact h g (List.mem_cons_self _ _) it' hit'
      · exact ih (fun g' hg' it0 hit0 => h g' (List.mem_cons_of_mem _ hg') it0 hit0) g hg it' hit'

theorem AllItems_addItems (p : Item → Prop) :
    ∀ (its : List Item) (gs : List FileGroup) (f : List Char),
      (∀ it ∈ its, p it) → AllItems p gs → AllItems p (addItems gs f its) := by
  intro its
  induction its with
  | nil => intro gs f _ h; exact h
  | cons it rest ih =>
    intro gs f hits h
    show AllItems p (addItems (addItem gs f it) f rest)
    exact ih (addItem gs f it) f (fun x hx => hits x (List.mem_cons_of_mem _ hx))
      (AllItems_addItem p gs f it (hits it (List.mem_cons_self _ _)) h)

theorem expandLitAux_mtch (cs : PyVal) (text pat : List Char) (lnum : Int) :
    ∀ (fuel move : Nat) (lim : Int) (it : Item),
      it ∈ (expandLitAux cs text pat lnum fuel move lim).1 → it.mtch = none := by
  intro fuel
  induction fuel with
  | zero => intro move lim it hit; simp [expandLitAux] at hit
  | succ n ih =>
    intro move lim it hit
    simp only [expandLitAux] at hit
    split at hit
    · simp at hit
    · rename_i nc heq
      split at hit
      · simp at hit
        subst hit
        rfl
      · simp at hit
        rcases hit with hit | hit
        · subst hit
          rfl
        · exact ih (nc + 1) (lim - 1) it hit

theorem expandRx_mtch (text : List Char) (lnum : Int) :
    ∀ (ps : List Nat) (lim : Int) (it : Item),
      it ∈ (expandRx text lnum ps lim).1 → it.mtch = none := by
  intro ps
  induction ps with
  | nil => intro lim it hit; simp [expandRx] at hit
  | cons p rest ih =>
    intro lim it hit
    simp only [expandRx] at hit
    split at hit
    · simp at hit
      subst hit
      rfl
    · simp at hit
      rcases hit with hit | hit
      · subst hit
        rfl
      · exact ih (lim - 1) it hit

theorem colonLine_mtch (P : ColonParams) (rx : Option (List Char → Nat → List Nat))
    (line : List Char) (result : List FileGroup) {limit : Int} {r2 : List FileGroup}
    {l2 : Int} (h : colonLine P rx line result limit = .out r2 l2)
    (hres : AllItems (fun it => it.mtch = none) result) :
    AllItems (fun it => it.mtch = none) r2 := by
  simp only [colonLine] at h
  split at h
  · rename_i f lraw craw text hsplit
    split at h
    · rename_i lnum cnum hln hcn
      split at h
      · exact absurd h (by simp)
      · split at h
        · exact absurd h (by simp)
        · split at h
          · split at h
            · exact absurd h (by simp)
            · rename_i charNum heq2
              split at h
              · rename_i hre
                injection h with h1 h2
                subst h1
                exact AllItems_addItems _ _ _ _
                  (fun it hit => expandLitAux_mtch _ _ _ _ _ _ _ it hit)
                  (AllItems_addItem _ _ _ _ rfl hres)
              · cases rx with
                | none => simp at h
                | some rxf =>
                  injection h with h1 h2
                  subst h1
                  exact AllItems_addItems _ _ _ _
                    (fun it hit => expandRx_mtch _ _ _ _ it hit)
                    (AllItems_addItem _ _ _ _ rfl hres)
          · injection h with h1 h2
            subst h1
            exact AllItems_addItem _ _ _ _ rfl hres
    · exact absurd h (by simp)
  · exact absurd h (by simp)

theorem colonLoop_mtch (P : ColonParams) (rx : Option (List Char → Nat → List Nat)) :
    ∀ (lines : List RawLine) (stderr : List (List Char)) (result : List FileGroup)
      (limit : Int) (gs : List FileGroup) (lim2 : Int),
      AllItems (fun it => it.mtch = none) result →
      colonLoop P rx lines stderr result limit = .finished gs lim2 →
      AllItems (fun it => it.mtch = none) gs := by
  intro lines
  induction lines with
  | nil =>
    intro stderr result limit gs lim2 hres h
    by_cases h0 : limit ≤ 0
    · rw [colonLoop_stop P rx _ _ _ h0] at h
      injection h with h1 h2; subst h1
      exact hres
    · rw [colonLoop_nil P rx _ _ h0] at h
      split at h
      · split at h
        · split at h
          · injection h with h1 h2; subst h1; exact hres
          · exact absurd h (by simp)
        · injection h with h1 h2; subst h1; exact hres
      · injection h with h1 h2; subst h1; exact hres
  | cons l rest ih =>
    intro stderr result limit gs lim2 hres h
    by_cases h0 : limit ≤ 0
    · rw [colonLoop_stop P rx _ _ _ h0] at h
      injection h with h1 h2; subst h1
      exact hres
    · cases l with
      | bad =>
        rw [colonLoop_bad P rx _ _ _ h0] at h
        exact ih _ _ _ _ _ hres h
      | ok s =>
        by_cases hb : rstrip s = []
        · rw [colonLoop_ok_blank P rx _ _ _ _ h0 hb] at h
          split at h
          · split at h
            · split at h
              · exact ih _ _ _ _ _ hres h
              · exact absurd h (by simp)
            · exact ih _ _ _ _ _ hres h
          · exact ih _ _ _ _ _ hres h
        · rw [colonLoop_ok_line P rx _ _ _ _ h0 hb] at h
          split at h
          · exact ih _ _ _ _ _ hres h
          · exact absurd h (by simp)
          · rename_i r2' l2' heq
            exact ih _ _ _ _ _ (colonLine_mtch P rx (rstrip s) result heq hres) h

theorem rgProcessSubs_mtchSome (P : RgParams) (fname : List Char) (lnum : Int)
    (text : List Char) :
    ∀ (subs : List SubM) (result : List FileGroup) (limit : Int),
      AllItems (fun it => it.mtch.isSome = true) result →
      AllItems (fun it => it.mtch.isSome = true)
        (rgProcessSubs P fname lnum text subs result limit).1 := by
  intro subs
  induction subs with
  | nil => intro result limit h; simpa [rgProcessSubs] using h
  | cons sub rest ih =>
    intro result limit h
    simp only [rgProcessSubs]
    split
    · exact ih result limit h
    · exact ih _ _ (AllItems_addItem _ _ _ _ rfl h)

theorem rgLoop_mtchSome (P : RgParams) :
    ∀ (events : List RgEvent) (stderr : List (List Char)) (result : List FileGroup)
      (limit : Int) (gs : List FileGroup) (lim2 : Int),
      AllItems (fun it => it.mtch.isSome = true) result →
      rgLoop P events stderr result limit = .finished gs lim2 →
      AllItems (fun it => it.mtch.isSome = true) gs := by
  intro events
  induction events with
  | nil =>
    intro stderr result limit gs lim2 hres h
    by_cases h0 : limit ≤ 0
    · rw [rgLoop_stop P _ _ _ h0] at h
      injection h with h1 h2; subst h1
      exact hres
    · rw [rgLoop_nil P _ _ h0] at h
      split at h
      · split at h
        · split at h
          · injection h with h1 h2; subst h1; exact hres
          · exact absurd h (by simp)
        · injection h with h1 h2; subst h1; exact hres
      · injection h with h1 h2; subst h1; exact hres
  | cons e rest ih =>
    intro stderr result limit gs lim2 hres h
    by_cases h0 : limit ≤ 0
    · rw [rgLoop_stop P _ _ _ h0] at h
      injection h with h1 h2; subst h1
      exact hres
    · cases e with
      | bad =>
        rw [rgLoop_bad P _ _ _ h0] at h
        exact ih _ _ _ _ _ hres h
      | notJson =>
        rw [rgLoop_notJson P _ _ _ h0] at h
        exact ih _ _ _ _ _ hres h
      | badShape =>
        rw [rgLoop_badShape P _ _ _ h0] at h
        exact ih _ _ _ _ _ hres h
      | nonMatch =>
        rw [rgLoop_nonMatch P _ _ _ h0] at h
        exact ih _ _ _ _ _ hres h
      | blank =>
        rw [rgLoop_blank P _ _ _ h0] at h
        split at h
        · split at h
          · split at h
            · exact ih _ _ _ _ _ hres h
            · exact absurd h (by simp)
          · exact ih _ _ _ _ _ hres h
        · exact ih _ _ _ _ _ hres h
      | matchRec f lnum payload subs =>
        rw [rgLoop_match P f lnum payload subs _ _ _ h0] at h
        split at h
        · exact ih _ _ _ _ _ hres h
        · exact ih _ _ _ _ _
            (rgProcessSubs_mtchSome P f lnum _ subs result limit hres) h

/-- Claim C8, amended: on success, every item record has `lnum`, `cnum`
and `text`; the `match` field is present on every record in
structured-record mode, but colon-delimited mode (primary and expanded
records alike) never writes it. -/
theorem c8_amended :
    (∀ (P : RgParams) (events : List RgEvent) (stderr : List (List Char)) (limit : Int)
      (gs : List FileGroup) (lim2 : Int),
      rgLoop P events stderr [] limit = .finished gs lim2 →
      AllItems (fun it => it.mtch.isSome = true) gs)
    ∧ (∀ (P : ColonParams) (rx : Option (List Char → Nat → List Nat)) (lines : List RawLine)
      (stderr : List (List Char)) (limit : Int) (gs : List FileGroup) (lim2 : Int),
      colonSearch P rx lines stderr limit = .finished gs lim2 →
      AllItems (fun it => it.mtch = none) gs) := by
  constructor
  · intro P events stderr limit gs lim2 h
    exact rgLoop_mtchSome P events stderr [] limit gs lim2 (AllItems_nil _) h
  · intro P rx lines stderr limit gs lim2 h
    unfold colonSearch at h
    split at h
    · exact absurd h (by simp)
    · exact colonLoop_mtch P rx lines stderr [] limit gs lim2 (AllItems_nil _) h

/-- Witness for `c8_amended` on a concrete colon-mode run: the single
emitted record has no `match` field. -/
theorem c8_amended_witness :
    AllItems (fun it => it.mtch = none) [⟨"a.py".toList, [⟨1, 1, ['x'], none⟩]⟩] :=
  c8_amended.2 pNoSub none [RawLine.ok "a.py:1:1:x".toList] [] 5
    [⟨"a.py".toList, [⟨1, 1, ['x'], none⟩]⟩] 4 (by decide)

theorem mpInv_nextProc (spawn : List (List Char) → Child) (s : MPState) :
    MPInv (nextProc spawn s) := by
  unfold MPInv nextProc
  cases hp : s.proc with
  | some p =>
    simp only [hp]
    split
    · rename_i hle
      intro _
      exact ⟨rfl, hle⟩
    · intro hco
      simp at hco
  | none =>
    simp only [hp]
    split
    · rename_i hle
      intro _
      exact ⟨rfl, hle⟩
    · intro hco
      simp at hco

theorem mpInv_readlineAux (spawn : List (List Char) → Child) :
    ∀ (fuel : Nat) (s : MPState), MPInv s → MPInv (readlineAux spawn fuel s).2 := by
  intro fuel
  induction fuel with
  | zero => intro s h; exact h
  | succ n ih =>
    intro s h
    cases hp : s.proc with
    | none => simpa [readlineAux, hp] using h
    | some p =>
      cases ho : p.outLines with
      | cons l ls =>
        simp only [readlineAux, hp, ho]
        intro hco
        simp at hco
      | nil =>
        simp only [readlineAux, hp, ho]
        exact ih (nextProc spawn s) (mpInv_nextProc spawn s)

theorem mpReach_inv (spawn : List (List Char) → Child) {s : MPState}
    (h : MPReach spawn s) : MPInv s := by
  induction h with
  | init cmd files => exact mpInv_nextProc spawn _
  | step hs ih => exact mpInv_readlineAux spawn _ _ ih

/-- Claim C9: a reachable `MultiProc` state with no active child has
consumed the whole file list; there `poll()` returns 0 — regardless of
the children's exit codes, since line 52 stores 0 unconditionally — and
`readline()` returns `b''` leaving the state unchanged (hence every
subsequent read also returns `b''`). -/
theorem c9_exhausted_terminal (spawn : List (List Char) → Child) (s : MPState)
    (hr : MPReach spawn s) (hp : s.proc = none) :
    poll s = some 0 ∧ readline spawn s = ([], s) := by
  obtain ⟨hrc, hidx⟩ := mpReach_inv spawn hr hp
  constructor
  · simp [poll, hp, hidx, hrc]
  · unfold readline
    simp [readlineAux, hp]

/-- Witness for `c9_exhausted_terminal`: a `MultiProc` constructed over
an empty file list (children exiting 7) is immediately exhausted. -/
theorem c9_exhausted_terminal_witness :
    poll mp0 = some 0 ∧ readline spawn0 mp0 = ([], mp0) :=
  c9_exhausted_terminal spawn0 mp0 (MPReach.init [['g']] []) (by decide)

theorem colonLoop_err_iff (P : ColonParams) (rx : Option (List Char → Nat → List Nat)) :
    ∀ (lines : List RawLine) (stderr : List (List Char)) (result : List FileGroup)
      (limit : Int),
      (∀ l ∈ lines, l = RawLine.bad ∨ ∃ s, l = RawLine.ok s ∧ rstrip s ≠ []) →
      (1 ≤ limit ∨ result ≠ []) →
      ((∃ m, colonLoop P rx lines stderr result limit = .stderrError m) ↔
        (goodStderrFirst stderr ∧
          ∃ lim2, colonLoop P rx lines [] result limit = .finished [] lim2)) := by
  intro lines
  induction lines with
  | nil =>
    intro stderr result limit hw hpre
    by_cases h0 : limit ≤ 0
    · have hres : result ≠ [] := by
        rcases hpre with hpre | hpre
        · exact absurd hpre (by omega)
        · exact hpre
      rw [colonLoop_stop P rx [] stderr result h0, colonLoop_stop P rx [] [] result h0]
      constructor
      · rintro ⟨m, hm⟩
        exact absurd hm (by simp)
      · rintro ⟨hg, lim2, hm⟩
        injection hm with h1 h2
        exact absurd h1 hres
    · rw [colonLoop_nil P rx stderr result h0, colonLoop_nil P rx [] result h0]
      by_cases hres : result = []
      · subst hres
        cases stderr with
        | nil => simp [goodStderrFirst]
        | cons e es =>
          by_cases he : e = []
          · simp [he, goodStderrFirst]
          · simp [he, goodStderrFirst]
      · simp only [if_neg hres]
        constructor
        · rintro ⟨m, hm⟩
          exact absurd hm (by simp)
        · rintro ⟨hg, lim2, hm⟩
          injection hm with h1 h2
          exact absurd h1 hres
  | cons l rest ih =>
    intro stderr result limit hw hpre
    have hwrest : ∀ x ∈ rest, x = RawLine.bad ∨ ∃ s, x = RawLine.ok s ∧ rstrip s ≠ [] :=
      fun x hx => hw x (List.mem_cons_of_mem _ hx)
    by_cases h0 : limit ≤ 0
    · have hres : result ≠ [] := by
        rcases hpre with hpre | hpre
        · exact absurd hpre (by omega)
        · exact hpre
      rw [colonLoop_stop P rx (l :: rest) stderr result h0,
        colonLoop_stop P rx (l :: rest) [] result h0]
      constructor
      · rintro ⟨m, hm⟩
        exact absurd hm (by simp)
      · rintro ⟨hg, lim2, hm⟩
        injection hm with h1 h2
        exact absurd h1 hres
    · rcases hw l (List.mem_cons_self _ _) with hbad | ⟨s, hok, hsne⟩
      · subst hbad
        rw [colonLoop_bad P rx rest stderr result h0, colonLoop_bad P rx rest [] result h0]
        exact ih stderr result limit hwrest hpre
      · subst hok
        rw [colonLoop_ok_line P rx s rest stderr result h0 hsne,
          colonLoop_ok_line P rx s rest [] result h0 hsne]
        cases hcl : colonLine P rx (rstrip s) result limit with
        | skip =>
          simp only [hcl]
          exact ih stderr result limit hwrest hpre
        | raisedStep =>
          simp only [hcl]
          constructor
          · rintro ⟨m, hm⟩
            exact absurd hm (by simp)
          · rintro ⟨hg, lim2, hm⟩
            exact absurd hm (by simp)
        | out r2 l2 =>
          simp only [hcl]
          have hout := colonLine_out P rx (rstrip s) result (by omega) hcl
          exact ih stderr r2 l2 hwrest (Or.inr hout.2.2)

theorem rgLoop_err_iff (P : RgParams) :
    ∀ (events : List RgEvent) (stderr : List (List Char)) (result : List FileGroup)
      (limit : Int),
      (∀ e ∈ events, e ≠ RgEvent.blank) →
      (1 ≤ limit ∨ result ≠ []) →
      ((∃ m, rgLoop P events stderr result limit = .stderrError m) ↔
        (goodStderrFirst stderr ∧
          ∃ lim2, rgLoop P events [] result limit = .finished [] lim2)) := by
  intro events
  induction events with
  | nil =>
    intro stderr result limit hw hpre
    by_cases h0 : limit ≤ 0
    · have hres : result ≠ [] := by
        rcases hpre with hpre | hpre
        · exact absurd hpre (by omega)
        · exact hpre
      rw [rgLoop_stop P [] stderr result h0, rgLoop_stop P [] [] result h0]
      constructor
      · rintro ⟨m, hm⟩
        exact absurd hm (by simp)
      · rintro ⟨hg, lim2, hm⟩
        injection hm with h1 h2
        exact absurd h1 hres
    · rw [rgLoop_nil P stderr result h0, rgLoop_nil P [] result h0]
      by_cases hres : result = []
      · subst hres
        cases stderr with
        | nil => simp [goodStderrFirst]
        | cons e es =>
          by_cases he : e = []
          · simp [he, goodStderrFirst]
          · simp [he, goodStderrFirst]
      · simp only [if_neg hres]
        constructor
        · rintro ⟨m, hm⟩
          exact absurd hm (by simp)
        · rintro ⟨hg, lim2, hm⟩
          injection hm with h1 h2
          exact absurd h1 hres
  | cons e rest ih =>
    intro stderr result limit hw hpre
    have hwrest : ∀ x ∈ rest, x ≠ RgEvent.blank :=
      fun x hx => hw x (List.mem_cons_of_mem _ hx)
    by_cases h0 : limit ≤ 0
    · have hres : result ≠ [] := by
        rcases hpre with hpre | hpre
        · exact absurd hpre (by omega)
        · exact hpre
      rw [rgLoop_stop P (e :: rest) stderr result h0, rgLoop_stop P (e :: rest) [] result h0]
      constructor
      · rintro ⟨m, hm⟩
        exact absurd hm (by simp)
      · rintro ⟨hg, lim2, hm⟩
        injection hm with h1 h2
        exact absurd h1 hres
    · cases e with
      | blank => exact absurd rfl (hw RgEvent.blank (List.mem_cons_self _ _))
      | bad =>
        rw [rgLoop_bad P rest stderr result h0, rgLoop_bad P rest [] result h0]
        exact ih stderr result limit hwrest hpre
      | notJson =>
        rw [rgLoop_notJson P rest stderr result h0, rgLoop_notJson P rest [] result h0]
        exact ih stderr result limit hwrest hpre
      | badShape =>
        rw [rgLoop_badShape P rest stderr result h0, rgLoop_badShape P rest [] result h0]
        exact ih stderr result limit hwrest hpre
      | nonMatch =>
        rw [rgLoop_nonMatch P rest stderr result h0, rgLoop_nonMatch P rest [] result h0]
        exact ih stderr result limit hwrest hpre
      | matchRec f lnum payload subs =>
        rw [rgLoop_match P f lnum payload subs rest stderr result h0,
          rgLoop_match P f lnum payload subs rest [] result h0]
        by_cases hmc : (payload.length : Int) > P.maxColumns
        · rw [if_pos hmc, if_pos hmc]
          exact ih stderr result limit hwrest hpre
        · rw [if_neg hmc, if_neg hmc]
          have hsub := rgProcessSubs_spec P f lnum
            (rstrip (payload.takeWhile (fun c => c ≠ '\n'))) subs result limit
          obtain ⟨e1, e2, e3, e4⟩ := hsub
          have hpre2 : 1 ≤ (rgProcessSubs P f lnum
              (rstrip (payload.takeWhile (fun c => c ≠ '\n'))) subs result limit).2
              ∨ (rgProcessSubs P f lnum
              (rstrip (payload.takeWhile (fun c => c ≠ '\n'))) subs result limit).1 ≠ [] := by
            by_cases hz : (rgProcessSubs P f lnum
                (rstrip (payload.takeWhile (fun c => c ≠ '\n'))) subs result limit).2 = limit
            · rcases hpre with hp | hp
              · left; omega
              · right; exact e4 (Or.inl hp)
            · right; exact e4 (Or.inr hz)
          exact ih stderr _ _ hwrest hpre2

/-- Claim C4: in both parsing modes, a stderr line is surfaced as the
error outcome IF AND ONLY IF the backend's stderr begins with a nonempty
line and the very same stream (with stderr silenced) finishes with ZERO
matches accumulated; once a match exists the error is swallowed and a
partial success is returned.  In particular a backend with no output and
stderr `pattern error` yields exactly that error. -/
theorem c4_stderr_iff :
    (∀ (P : ColonParams) (rx : Option (List Char → Nat → List Nat)) (lines : List RawLine)
      (stderr : List (List Char)) (limit : Int),
      1 ≤ limit →
      (∀ l ∈ lines, l = RawLine.bad ∨ ∃ s, l = RawLine.ok s ∧ rstrip s ≠ []) →
      ((∃ m, colonSearch P rx lines stderr limit = .stderrError m) ↔
        (goodStderrFirst stderr ∧
          ∃ lim2, colonSearch P rx lines [] limit = .finished [] lim2)))
    ∧ (∀ (P : RgParams) (events : List RgEvent) (stderr : List (List Char)) (limit : Int),
      1 ≤ limit →
      (∀ e ∈ events, e ≠ RgEvent.blank) →
      ((∃ m, rgLoop P events stderr [] limit = .stderrError m) ↔
        (goodStderrFirst stderr ∧ ∃ lim2, rgLoop P events [] [] limit = .finished [] lim2)))
    ∧ rgLoop pRg [] ["pattern error".toList] [] 1000
        = .stderrError "pattern error".toList := by
  refine ⟨?_, ?_, by decide⟩
  · intro P rx lines stderr limit hl hw
    unfold colonSearch
    split
    · constructor
      · rintro ⟨m, hm⟩
        exact absurd hm (by simp)
      · rintro ⟨hg, lim2, hm⟩
        exact absurd hm (by simp)
    · exact colonLoop_err_iff P rx lines stderr [] limit hw (Or.inl hl)
  · intro P events stderr limit hl hw
    exact rgLoop_err_iff P events stderr [] limit hw (Or.inl hl)

/-- Witness for `c4_stderr_iff`: with no stdout lines, limit 1 and
stderr line `boom`, the colon loop surfaces `boom`. -/
theorem c4_stderr_iff_witness :
    ∃ m, colonSearch pNoSub none [] ["boom".toList] 1 = .stderrError m :=
  (c4_stderr_iff.1 pNoSub none [] ["boom".toList] 1 (by decide) (by simp)).mpr
    ⟨show "boom".toList ≠ [] from by decide, 1, by decide⟩

/-- Claim C6: colon-delimited line `src/a.py:10:5:foo bar foo`, pattern
`foo`, literal case-sensitive matching, submatch `'first'`, limit 5 —
exactly two records: the primary at line 10 column 5 and one expanded
record at byte column 9 (the second `foo`), with the remaining limit 3. -/
theorem c6_scenario :
    colonSearch pFirstLit none [RawLine.ok "src/a.py:10:5:foo bar foo".toList] [] 5
      = .finished [⟨"src/a.py".toList,
          [⟨10, 5, "foo bar foo".toList, none⟩, ⟨10, 9, "foo bar foo".toList, none⟩]⟩] 3 := by
  decide

/-- Claim C8, counterexample: a record emitted by the colon-delimited
mode has no `'match'` field (the source only sets `text`, `lnum`, `cnum`
at lines 454-457), refuting "every item record has all four fields". -/
theorem c8_counterexample :
    ∃ it ∈ itemsOf (finishedGroups
        (colonSearch pNoSub none [RawLine.ok "a.py:1:1:x".toList] [] 5)),
      it.mtch = none := by
  exact ⟨⟨1, 1, ['x'], none⟩, by decide, rfl⟩

end FarShell
